import Mathlib

/-!
Shallow embedding of `convert.py` (Kindle highlights extractor).

Strings are modelled as `List Char`.  Python string primitives used by the
source (`str.split` on a substring, `str.replace`, `str.strip`, `re.sub` for
a character class, for `\(​[^)]*\)` and for `\s+`, substring membership
`in`, slicing `[:100]`, `'\n'.join`) are embedded as structurally recursive
list functions below, and the four source functions `sanitize_filename`,
`extract_book_title`, `create_book_document`, `extract_all_highlights` are
translated on top of them.  File-system effects (directory creation, file
read, document save) are made explicit parameters: the read result is an
`Option` (None = FileNotFoundError or any other read error), and the save
step (the only statement inside the `try` of `create_book_document`) is an
oracle `saveOk` on the target path, `false` meaning `doc.save` raised.
-/

/-- Convert a Lean string literal to the `List Char` model. -/
def lc (s : String) : List Char := s.toList

/-- Python whitespace for `str.strip` and `re`
    class `\s` (ASCII): space, tab, LF, CR, VT, FF. -/
def isSpaceChar (c : Char) : Bool :=
  c = ' ' || c = '\t' || c = '\n' || c = '\r' || c = Char.ofNat 11 || c = Char.ofNat 12

/-- `isPrefixList s l` : is `s` a prefix of `l`. -/
def isPrefixList : List Char → List Char → Bool
  | [], _ => true
  | _ :: _, [] => false
  | x :: xs, y :: ys => x = y && isPrefixList xs ys

/-- Python `sep in l` : does `sep` occur as a contiguous substring of `l`. -/
def containsSub (sep : List Char) : List Char → Bool
  | [] => isPrefixList sep []
  | c :: rest => isPrefixList sep (c :: rest) || containsSub sep rest

/-- Worker for Python `str.split(sep)` (leftmost, non-overlapping).
    The `Nat` argument counts separator characters still to be skipped
    after a match, so the recursion is structural on the list. -/
def splitGo (sep : List Char) : List Char → Nat → List Char → List (List Char)
  | [], _, acc => [acc.reverse]
  | _ :: rest, Nat.succ k, acc => splitGo sep rest k acc
  | c :: rest, 0, acc =>
    if isPrefixList sep (c :: rest) then
      acc.reverse :: splitGo sep rest (sep.length - 1) []
    else
      splitGo sep rest 0 (c :: acc)

/-- Python `l.split(sep)` for a non-empty separator. -/
def splitOnSub (sep l : List Char) : List (List Char) := splitGo sep l 0 []

/-- The part of `l` strictly before the first occurrence of `sep`
    (all of `l` when `sep` does not occur). -/
def beforeFirst (sep : List Char) : List Char → List Char
  | [] => []
  | c :: rest => if isPrefixList sep (c :: rest) then [] else c :: beforeFirst sep rest

/-- Python `sep.join pieces`. -/
def joinWith (sep : List Char) : List (List Char) → List Char
  | [] => []
  | [x] => x
  | x :: y :: rest => x ++ sep ++ joinWith sep (y :: rest)

/-- Drop trailing whitespace (the right half of Python `str.strip`). -/
def stripEnd : List Char → List Char
  | [] => []
  | c :: rest =>
    let r := stripEnd rest
    if r.isEmpty then (if isSpaceChar c then [] else [c]) else c :: r

/-- Python `str.strip()`. -/
def pyStrip (l : List Char) : List Char := stripEnd (List.dropWhile isSpaceChar l)

/-- Worker for `re.sub(r'\s+', ' ', l)` : the flag says whether we are
    inside a whitespace run whose single `' '` was already emitted. -/
def cwAux : List Char → Bool → List Char
  | [], _ => []
  | c :: rest, inRun =>
    if isSpaceChar c then
      (if inRun then cwAux rest true else ' ' :: cwAux rest true)
    else c :: cwAux rest false

/-- `re.sub(r'\s+', ' ', l)` : collapse every whitespace run to one space. -/
def collapseWs (l : List Char) : List Char := cwAux l false

/-- Worker for `re.sub(r'\([^)]*\)', '', l)`.  The regex removes, scanning
    left to right, each `'('` together with everything up to and including
    the first following `')'`; a `'('` with no later `')'` matches nothing
    and stays.  `some buf` buffers a pending `'('`‑group (reversed) whose
    closing `')'` has not been seen yet. -/
def rpAux : List Char → Option (List Char) → List Char
  | [], none => []
  | [], some buf => buf.reverse
  | c :: rest, none => if c = '(' then rpAux rest (some [c]) else c :: rpAux rest none
  | c :: rest, some buf => if c = ')' then rpAux rest none else rpAux rest (some (c :: buf))

/-- `re.sub(r'\([^)]*\)', '', l)`. -/
def removeParens (l : List Char) : List Char := rpAux l none

/-- Worker for Python `l.replace(sep, '')` (leftmost, non-overlapping),
    with the same skip-counter device as `splitGo`. -/
def replGo (sep : List Char) : List Char → Nat → List Char
  | [], _ => []
  | _ :: rest, Nat.succ k => replGo sep rest k
  | c :: rest, 0 =>
    if isPrefixList sep (c :: rest) then replGo sep rest (sep.length - 1)
    else c :: replGo sep rest 0

/-- Python `l.replace(sep, '')` for a non-empty separator. -/
def replaceAll (sep l : List Char) : List Char := replGo sep l 0

/-- The character class of `re.sub(r'[<>:"/\\|?*]', '', filename)`. -/
def isIllegalFilenameChar (c : Char) : Bool :=
  c = '<' || c = '>' || c = ':' || c = '\"' || c = '/' || c = '\\' || c = '|' || c = '?' || c = '*'

/-- The literal `'...'` removed by `filename.replace('...', '')`. -/
def threeDots : List Char := ['.', '.', '.']

/-- `sanitize_filename` (convert.py lines 11-24): drop illegal characters,
    drop `'...'` substrings, strip, truncate to 100 characters
    (`take 100` equals the source's conditional slice `[:100]`). -/
def sanitize_filename (filename : List Char) : List Char :=
  let f1 := filename.filter (fun c => !(isIllegalFilenameChar c))
  let f2 := replaceAll threeDots f1
  let f3 := pyStrip f2
  f3.take 100

/-- `extract_book_title` (convert.py lines 27-38): remove `(...)` groups,
    strip, collapse whitespace runs. -/
def extract_book_title (book_info : List Char) : List Char :=
  collapseWs (pyStrip (removeParens book_info))

/-- The separator `'=========='` (ten equals signs) of line 120. -/
def separatorLine : List Char := lc "=========="

/-- The line separator used by `highlight.split('\n')`. -/
def nlChar : List Char := ['\n']

/-- The marker `"| Adicionado:"` of lines 137-138. -/
def adicionadoMarker : List Char := lc "| Adicionado:"

/-- Lines 137-138: `if metadata and "| Adicionado:" in metadata:
    metadata = metadata.split("| Adicionado:")[0].strip()`. -/
def trimMetadata (m : List Char) : List Char :=
  if !m.isEmpty && containsSub adicionadoMarker m then
    pyStrip ((splitOnSub adicionadoMarker m).headD [])
  else m

/-- Line 126+130: the stripped chunk, split into lines. -/
def chunkLines (raw : List Char) : List (List Char) := splitOnSub nlChar (pyStrip raw)

/-- Line 133: `book_info = lines[0] if lines else ""`
    (`split` never returns an empty list, so `headD` covers both cases). -/
def chunkBookInfo (raw : List Char) : List Char := (chunkLines raw).headD []

/-- Line 134: `metadata = lines[1] if len(lines) > 1 else ""`. -/
def chunkMetadataRaw (raw : List Char) : List Char := ((chunkLines raw).drop 1).headD []

/-- Line 140: `'\n'.join(lines[2:]).strip() if len(lines) > 2 else ""`. -/
def chunkText (raw : List Char) : List Char :=
  if 2 < (chunkLines raw).length then pyStrip (joinWith nlChar ((chunkLines raw).drop 2)) else []

/-- One kept highlight record (the dict built at lines 152-156). -/
structure Record where
  book_info : List Char
  metadata : List Char
  text : List Char
deriving DecidableEq

/-- Lines 126-156, the per-chunk work: `none` when the chunk is skipped
    (empty after strip, line 127-128) or discarded by the
    `if highlight_text and book_info` check of line 143. -/
def parseChunk (raw : List Char) : Option Record :=
  if (pyStrip raw).isEmpty then none
  else if !(chunkText raw).isEmpty && !(chunkBookInfo raw).isEmpty then
    some ⟨chunkBookInfo raw, trimMetadata (chunkMetadataRaw raw), chunkText raw⟩
  else none

/-- Lines 147-156: append to the entry with this key, or create the key at
    the end (a Python dict preserves insertion order, modelled as an
    association list). -/
def addRecord : List (List Char × List Record) → List Char → Record → List (List Char × List Record)
  | [], title, r => [(title, [r])]
  | (t, rs) :: rest, title, r =>
    if t = title then (t, rs ++ [r]) :: rest else (t, rs) :: addRecord rest title r

/-- One iteration of the `for highlight in highlights` loop (lines 125-156). -/
def parseStep (groups : List (List Char × List Record)) (raw : List Char) : List (List Char × List Record) :=
  match parseChunk raw with
  | none => groups
  | some r => addRecord groups (extract_book_title r.book_info) r

/-- Lines 119-156: split the raw content on `'=========='` and fold every
    chunk into the per-book dictionary. -/
def extractGroups (content : List Char) : List (List Char × List Record) :=
  (splitOnSub separatorLine content).foldl parseStep []

/-- Total number of records over all groups. -/
def countRecords (groups : List (List Char × List Record)) : Nat :=
  (groups.map (fun g => g.2.length)).sum

/-- A chunk that line 143 would discard: empty highlight text or empty
    book info (an all-whitespace chunk falls under both). -/
def isDiscardedChunk (raw : List Char) : Bool :=
  (chunkText raw).isEmpty || (chunkBookInfo raw).isEmpty

/-- Line 84: `f"{safe_title}_Highlights.docx"`. -/
def docFilename (title : List Char) : List Char :=
  sanitize_filename title ++ lc "_Highlights.docx"

/-- Line 85: `os.path.join(output_dir, filename)`. -/
def joinPath (dir file : List Char) : List Char := dir ++ '/' :: file

/-- `create_book_document` (lines 41-94).  Document construction is pure;
    the only fallible statement is `doc.save(filepath)` inside the
    `try`, modelled by the `saveOk` oracle on the file path.  The function
    returns `True` on a successful save and `False` from the `except`
    branch, so no exception escapes it. -/
def create_book_document (book_title : List Char) (_highlights : List Record)
    (output_dir : List Char) (saveOk : List Char → Bool) : Bool :=
  saveOk (joinPath output_dir (docFilename book_title))

/-- Lines 166-171: the render loop.  Returns
    (`successful_docs`, `total_highlights`, paths attempted in order). -/
def renderBooks (output_dir : List Char) (saveOk : List Char → Bool) :
    List (List Char × List Record) → Nat × Nat × List (List Char)
  | [] => (0, 0, [])
  | (t, hs) :: rest =>
    let ok := create_book_document t hs output_dir saveOk
    let r := renderBooks output_dir saveOk rest
    (if ok then r.1 + 1 else r.1,
     if ok then r.2.1 + hs.length else r.2.1,
     joinPath output_dir (docFilename t) :: r.2.2)

/-- Observable outcome of one `extract_all_highlights` run. -/
structure RunResult where
  createdDir : Bool
  fatalError : Bool
  docsAttempted : List (List Char)
  successfulDocs : Nat
  totalHighlights : Nat
deriving DecidableEq

/-- `extract_all_highlights` (lines 97-179).  Faithful to the source
    order: the output directory is created (when absent) at lines 104-106
    BEFORE the input file is opened at lines 109-117; a `FileNotFoundError`
    or any other read error returns early (`readResult = none`); an empty
    dictionary prints "No highlights found." and returns; otherwise each
    book is rendered in insertion order. -/
def extract_all_highlights (dirExists : Bool) (readResult : Option (List Char))
    (output_dir : List Char) (saveOk : List Char → Bool) : RunResult :=
  let createdDir := !dirExists
  match readResult with
  | none => ⟨createdDir, true, [], 0, 0⟩
  | some content =>
    match extractGroups content with
    | [] => ⟨createdDir, false, [], 0, 0⟩
    | g :: gs =>
      let r := renderBooks output_dir saveOk (g :: gs)
      ⟨createdDir, false, r.2.2, r.1, r.2.1⟩

/-- A chunk of exactly two lines: book info, then the highlight text. -/
def exTwoLineChunk : List Char := lc "Book A\nHello"

/-- Input whose only ten-`=` run sits inside a text line (no separator line). -/
def exMidLineInput : List Char := lc "Book A\nPage 1\nab==========Book B\nPage 2\ncd"

/-- The spec's two-record scenario input. -/
def exScenarioInput : List Char :=
  lc "Book A (Author)\nPage 1\nHello\n==========\nBook A\nPage 2\nWorld\n=========="

/-- Input whose book-info line is a parenthesized annotation only. -/
def exParenOnlyInput : List Char := lc "(Author)\nPage 3\nSome text"

/-- A 101-character name: truncation to 100 characters leaves a trailing
    space, which a second sanitization pass strips. -/
def exLongName : List Char := List.replicate 99 'a' ++ [' ', 'b']

/-- No `'('` in `l` is followed, anywhere later in `l`, by a `')'`.  On
    such strings the parenthesis-removal regex matches nothing. -/
def parensOK : List Char → Bool
  | [] => true
  | c :: rest => (if c = '(' then !(rest.any (fun d => d = ')')) else true) && parensOK rest

/-- The first character, if any, is not whitespace. -/
def headNotSpace (l : List Char) : Prop :=
  ∀ c, l.head? = some c → isSpaceChar c = false

/-- The last character, if any, is not whitespace. -/
def noTrailWs (l : List Char) : Prop :=
  ∀ c, l.getLast? = some c → isSpaceChar c = false

/-- C6: the spec's scenario input yields exactly one group, keyed
    "Book A", holding the records "Hello" then "World" in order; the two
    textually different book-info lines merge into one group. -/
theorem scenario_book_a_two_records :
    extractGroups exScenarioInput
      = [(lc "Book A", [⟨lc "Book A (Author)", lc "Page 1", lc "Hello"⟩,
                        ⟨lc "Book A", lc "Page 2", lc "World"⟩])] := by decide

/-- C10: a non-empty book-info line that is only a parenthesized
    annotation passes the non-empty check, derives the empty title, is
    grouped under the empty key, and the document name for that key is
    "_Highlights.docx". -/
theorem empty_title_group_scenario :
    extractGroups exParenOnlyInput
        = [([], [⟨lc "(Author)", lc "Page 3", lc "Some text"⟩])]
    ∧ (chunkBookInfo exParenOnlyInput).isEmpty = false
    ∧ extract_book_title (lc "(Author)") = []
    ∧ docFilename [] = lc "_Highlights.docx" := by decide

/-- C3 counterexample: with a missing/unreadable input and an absent
    output directory, the run does abort fatally with no documents, but
    the output directory IS created (lines 103-106 run before the read at
    lines 109-117), contradicting "no writes to the output directory
    (including no creation of the output directory)". -/
theorem missing_input_creates_dir_cex :
    (extract_all_highlights false none (lc "highlights") (fun _ => true)).createdDir = true
    ∧ (extract_all_highlights false none (lc "highlights") (fun _ => true)).fatalError = true
    ∧ (extract_all_highlights false none (lc "highlights") (fun _ => true)).docsAttempted = [] := by
  exact ⟨rfl, rfl, rfl⟩

/-- C3 amended: for every run whose input cannot be read, the run aborts
    with a fatal error and attempts no document writes, but the output
    directory is created when absent, because directory creation precedes
    the read attempt. -/
theorem missing_input_aborts_but_creates_dir (dirExists : Bool) (outDir : List Char)
    (saveOk : List Char → Bool) :
    extract_all_highlights dirExists none outDir saveOk
      = ⟨!dirExists, true, [], 0, 0⟩ := rfl

/-- C5: for every sequence of book groups and every save oracle, the
    render loop attempts every book's document in order regardless of
    earlier failures, counts exactly the books whose save succeeded, and
    sums highlight totals over exactly those books; the loop is a total
    function (the `except` branch of `create_book_document` turns a failed
    save into `False`), so no exception propagates past the orchestrator. -/
theorem render_failure_recovered_locally (outDir : List Char) (saveOk : List Char → Bool)
    (groups : List (List Char × List Record)) :
    (renderBooks outDir saveOk groups).2.2
        = groups.map (fun g => joinPath outDir (docFilename g.1))
    ∧ (renderBooks outDir saveOk groups).1
        = (groups.filter (fun g => create_book_document g.1 g.2 outDir saveOk)).length
    ∧ (renderBooks outDir saveOk groups).2.1
        = ((groups.filter (fun g => create_book_document g.1 g.2 outDir saveOk)).map
            (fun g => g.2.length)).sum := by
  induction groups with
  | nil => exact ⟨rfl, rfl, rfl⟩
  | cons g rest ih =>
    obtain ⟨t, hs⟩ := g
    obtain ⟨h1, h2, h3⟩ := ih
    cases hok : create_book_document t hs outDir saveOk <;>
      simp [renderBooks, hok, h1, h2, h3, List.filter_cons] <;> omega

/-- C1 counterexample: the two-line chunk "Book A\nHello" (book info,
    then highlight text, fewer than 2 lines before the text) is NOT kept:
    parsing discards it, because the text field is built from lines 2+
    and is therefore empty. -/
theorem two_line_chunk_dropped_cex :
    (chunkLines exTwoLineChunk).length = 2 ∧ parseChunk exTwoLineChunk = none := by
  decide

/-- C1 amended: every chunk whose stripped content has exactly two lines
    is discarded by the parser (its text field, lines 2+, is empty); a
    record with empty metadata is instead produced by a chunk of three or
    more lines whose second line is empty. -/
theorem two_line_chunk_parses_to_none (raw : List Char)
    (h : (chunkLines raw).length = 2) : parseChunk raw = none := by
  have ht : chunkText raw = [] := by
    unfold chunkText
    rw [h]
    simp
  unfold parseChunk
  by_cases he : (pyStrip raw).isEmpty
  · simp [he]
  · simp [he, ht]

/-- Witness for the C1 amended theorem at the chunk "Book A\nHello";
    also checks the empty-metadata companion at "Book A\n\nHello". -/
theorem two_line_chunk_parses_to_none_wit :
    parseChunk exTwoLineChunk = none
    ∧ parseChunk (lc "Book A\n\nHello") = some ⟨lc "Book A", [], lc "Hello"⟩ :=
  ⟨two_line_chunk_parses_to_none exTwoLineChunk (by decide), by decide⟩

/-- A list is a prefix of itself extended by anything. -/
theorem isPrefixList_self_append (s t : List Char) : isPrefixList s (s ++ t) = true := by
  induction s with
  | nil => rfl
  | cons x xs ih => simp [isPrefixList, ih]

/-- While the skip counter equals the length of the remaining separator
    part, `splitGo` consumes it without looking at it. -/
theorem splitGo_skip (sep b acc : List Char) : ∀ pre : List Char,
    splitGo sep (pre ++ b) pre.length acc = splitGo sep b 0 acc := by
  intro pre
  induction pre with
  | nil => rfl
  | cons p ps ih => exact ih

/-- A full separator occurrence at the scan point closes the current
    piece and restarts after the occurrence. -/
theorem splitGo_hit (x : Char) (xs b acc : List Char) :
    splitGo (x :: xs) ((x :: xs) ++ b) 0 acc
      = acc.reverse :: splitGo (x :: xs) b 0 [] := by
  have h2 : splitGo (x :: xs) ((x :: xs) ++ b) 0 acc
      = if isPrefixList (x :: xs) ((x :: xs) ++ b) then
          acc.reverse :: splitGo (x :: xs) (xs ++ b) ((x :: xs).length - 1) []
        else splitGo (x :: xs) (xs ++ b) 0 (x :: acc) := rfl
  rw [h2, isPrefixList_self_append, if_pos rfl]
  have h3 : splitGo (x :: xs) (xs ++ b) ((x :: xs).length - 1) []
      = splitGo (x :: xs) b 0 [] := splitGo_skip _ _ _ xs
  rw [h3]

/-- C2 counterexample: this input contains no line equal to the ten-`=`
    separator, yet the parser splits it (the ten-`=` run sits inside the
    third text line), producing two chunks and two book groups where the
    claim predicts a single unsplit chunk. -/
theorem split_mid_line_cex :
    ((splitOnSub nlChar exMidLineInput).all (fun ln => !(ln == separatorLine))) = true
    ∧ splitOnSub separatorLine exMidLineInput
        = [lc "Book A\nPage 1\nab", lc "Book B\nPage 2\ncd"]
    ∧ (extractGroups exMidLineInput).length = 2 := by decide

/-- C2 amended: the parser splits at every occurrence of the
    ten-character substring `'=========='` (leftmost, non-overlapping),
    regardless of line boundaries: for any prefix `a` free of `'='`
    characters, the piece before the occurrence is exactly `a` and
    splitting continues after the occurrence. -/
theorem split_at_every_marker_occurrence (a b : List Char)
    (h : ∀ c ∈ a, c ≠ '=') :
    splitOnSub separatorLine (a ++ separatorLine ++ b)
      = a :: splitOnSub separatorLine b := by
  have key : ∀ (a0 acc : List Char), (∀ c ∈ a0, c ≠ '=') →
      splitGo separatorLine (a0 ++ separatorLine ++ b) 0 acc
        = (acc.reverse ++ a0) :: splitOnSub separatorLine b := by
    intro a0
    induction a0 with
    | nil =>
      intro acc _
      have : splitGo separatorLine (separatorLine ++ b) 0 acc
          = acc.reverse :: splitGo separatorLine b 0 [] := splitGo_hit _ _ _ _
      simpa [splitOnSub] using this
    | cons c a1 ih =>
      intro acc ha
      have hc : c ≠ '=' := ha c (List.mem_cons_self c a1)
      have hpf : isPrefixList separatorLine (c :: (a1 ++ separatorLine ++ b)) = false := by
        simp [separatorLine, lc, isPrefixList]
        intro heq
        exact absurd heq.symm hc
      have step : splitGo separatorLine ((c :: a1) ++ separatorLine ++ b) 0 acc
          = splitGo separatorLine (a1 ++ separatorLine ++ b) 0 (c :: acc) := by
        show (if isPrefixList separatorLine (c :: (a1 ++ separatorLine ++ b)) then _ else _) = _
        rw [hpf]
        simp
      rw [step, ih (c :: acc) (fun d hd => ha d (List.mem_cons_of_mem c hd))]
      simp [List.reverse_cons, List.append_assoc]
  simpa [splitOnSub] using key a [] h

/-- Witness for the C2 amended theorem: a prefix containing a newline but
    no `'='` splits right before the mid-text separator occurrence. -/
theorem split_at_every_marker_occurrence_wit :
    splitOnSub separatorLine (lc "x\ny" ++ separatorLine ++ lc "z")
      = lc "x\ny" :: splitOnSub separatorLine (lc "z") :=
  split_at_every_marker_occurrence (lc "x\ny") (lc "z") (by decide)

/-- The first piece produced by the splitter is the part of the input
    before the first separator occurrence. -/
theorem splitGo_headD (sep l : List Char) : ∀ acc : List Char,
    (splitGo sep l 0 acc).headD [] = acc.reverse ++ beforeFirst sep l := by
  induction l with
  | nil => intro acc; simp [splitGo, beforeFirst]
  | cons c rest ih =>
    intro acc
    by_cases hp : isPrefixList sep (c :: rest) = true
    · simp [splitGo, hp, beforeFirst]
    · simp only [Bool.not_eq_true] at hp
      have step : splitGo sep (c :: rest) 0 acc = splitGo sep rest 0 (c :: acc) := by
        show (if isPrefixList sep (c :: rest) then _ else _) = _
        rw [hp]
        simp
      rw [step, ih (c :: acc)]
      simp [beforeFirst, hp, List.reverse_cons, List.append_assoc]

/-- C9: when the raw metadata contains the marker `"| Adicionado:"`, the
    kept metadata is the part before the first marker occurrence, stripped
    of surrounding whitespace; when the marker is absent the metadata is
    unchanged. -/
theorem metadata_trimming_spec (m : List Char) :
    (containsSub adicionadoMarker m = true →
        trimMetadata m = pyStrip (beforeFirst adicionadoMarker m))
    ∧ (containsSub adicionadoMarker m = false → trimMetadata m = m) := by
  constructor
  · intro h
    have hme : m.isEmpty = false := by
      cases m with
      | nil => exact absurd h (by decide)
      | cons c rest => rfl
    unfold trimMetadata
    rw [hme, h]
    simp only [Bool.not_false, Bool.true_and, if_pos]
    rw [splitOnSub, splitGo_headD]
    simp
  · intro h
    unfold trimMetadata
    simp [h]

/-- Witness for C9 at the spec's examples: the marker case evaluates to
    "Page 12" and the marker-free case is unchanged. -/
theorem metadata_trimming_spec_wit :
    trimMetadata (lc "Page 12 | Adicionado: 2024-01-01")
        = pyStrip (beforeFirst adicionadoMarker (lc "Page 12 | Adicionado: 2024-01-01"))
    ∧ trimMetadata (lc "Page 12") = lc "Page 12"
    ∧ trimMetadata (lc "Page 12 | Adicionado: 2024-01-01") = lc "Page 12" :=
  ⟨(metadata_trimming_spec _).1 (by decide), (metadata_trimming_spec _).2 (by decide), by decide⟩

/-- `countRecords` of a cons group. -/
theorem countRecords_cons (t : List Char) (rs : List Record)
    (rest : List (List Char × List Record)) :
    countRecords ((t, rs) :: rest) = rs.length + countRecords rest := by
  simp [countRecords]

/-- Appending one record to the dictionary raises the total by one,
    whether the key is new or existing. -/
theorem countRecords_addRecord (groups : List (List Char × List Record))
    (title : List Char) (r : Record) :
    countRecords (addRecord groups title r) = countRecords groups + 1 := by
  induction groups with
  | nil => simp [addRecord, countRecords]
  | cons g rest ih =>
    obtain ⟨t, rs⟩ := g
    by_cases h : t = title
    · simp [addRecord, h, countRecords_cons]
      omega
    · simp [addRecord, h, countRecords_cons, ih]
      omega

/-- Folding chunks into the dictionary adds exactly one record per kept
    chunk. -/
theorem countRecords_foldl (chunks : List (List Char)) :
    ∀ groups : List (List Char × List Record),
    countRecords (chunks.foldl parseStep groups)
      = countRecords groups + (chunks.filter (fun c => (parseChunk c).isSome)).length := by
  induction chunks with
  | nil => intro groups; simp
  | cons c rest ih =>
    intro groups
    cases hc : parseChunk c with
    | none => simp [parseStep, hc, ih, List.filter_cons]
    | some r =>
      simp [List.foldl_cons, parseStep, hc, ih, countRecords_addRecord, List.filter_cons]
      omega

/-- A chunk parses to a record exactly when line 143's check passes:
    non-empty highlight text and non-empty book info. -/
theorem parseChunk_isSome_iff (raw : List Char) :
    (parseChunk raw).isSome = !(isDiscardedChunk raw) := by
  unfold parseChunk isDiscardedChunk
  by_cases he : (pyStrip raw).isEmpty
  · have hn : pyStrip raw = [] := by
      simpa [List.isEmpty_iff] using he
    have hb : chunkBookInfo raw = [] := by
      unfold chunkBookInfo chunkLines
      rw [hn]
      rfl
    simp [he, hb]
  · simp only [he, if_false]
    cases ht : (chunkText raw).isEmpty <;> cases hb : (chunkBookInfo raw).isEmpty <;>
      simp [ht, hb]

/-- Splitting a list by a boolean predicate partitions its length. -/
theorem length_filter_not_split (p : List Char → Bool) (l : List (List Char)) :
    (l.filter p).length + (l.filter (fun x => !(p x))).length = l.length := by
  induction l with
  | nil => rfl
  | cons x rest ih =>
    cases hx : p x <;> simp [List.filter_cons, hx] <;> omega

/-- C7: the records in the parser's output, summed over all groups, number
    exactly the candidate chunks of the input minus the chunks discarded
    for empty highlight text or empty book info (an all-whitespace chunk,
    skipped at lines 127-128, has both fields empty and counts as
    discarded). -/
theorem record_count_conservation (content : List Char) :
    countRecords (extractGroups content)
      = (splitOnSub separatorLine content).length
        - ((splitOnSub separatorLine content).filter isDiscardedChunk).length := by
  have h1 := countRecords_foldl (splitOnSub separatorLine content) []
  have h2 := length_filter_not_split (fun c => (parseChunk c).isSome)
    (splitOnSub separatorLine content)
  have h3 : (splitOnSub separatorLine content).filter isDiscardedChunk
      = (splitOnSub separatorLine content).filter (fun c => !((parseChunk c).isSome)) := by
    apply List.filter_congr
    intro c _
    rw [parseChunk_isSome_iff]
    simp
  rw [extractGroups, h1, h3]
  have h0 : countRecords ([] : List (List Char × List Record)) = 0 := rfl
  rw [h0]
  omega

/-- Unfolding equation for `rpAux` in scanning mode. -/
theorem rpAux_cons_none (c : Char) (rest : List Char) :
    rpAux (c :: rest) none
      = if c = '(' then rpAux rest (some [c]) else c :: rpAux rest none := rfl

/-- Unfolding equation for `rpAux` in buffering mode. -/
theorem rpAux_cons_some (c : Char) (rest buf : List Char) :
    rpAux (c :: rest) (some buf)
      = if c = ')' then rpAux rest none else rpAux rest (some (c :: buf)) := rfl

/-- Unfolding equation for `parensOK`. -/
theorem parensOK_cons (c : Char) (rest : List Char) :
    parensOK (c :: rest)
      = ((if c = '(' then !(rest.any (fun d => d = ')')) else true) && parensOK rest) := rfl

/-- Unfolding equation for `stripEnd`. -/
theorem stripEnd_cons (c : Char) (rest : List Char) :
    stripEnd (c :: rest)
      = if (stripEnd rest).isEmpty then (if isSpaceChar c then [] else [c])
        else c :: stripEnd rest := rfl

/-- Unfolding equation for `cwAux`. -/
theorem cwAux_cons (c : Char) (rest : List Char) (inRun : Bool) :
    cwAux (c :: rest) inRun
      = if isSpaceChar c then
          (if inRun then cwAux rest true else ' ' :: cwAux rest true)
        else c :: cwAux rest false := rfl

/-- A buffered group never closed by a `')'` is emitted literally. -/
theorem rpAux_some_no_close : ∀ l : List Char, ')' ∉ l → ∀ buf : List Char,
    rpAux l (some buf) = buf.reverse ++ l := by
  intro l
  induction l with
  | nil => intro _ buf; simp [rpAux]
  | cons c rest ih =>
    intro h buf
    have hc : c ≠ ')' := fun e => h (e ▸ List.mem_cons_self c rest)
    have hr : ')' ∉ rest := fun m => h (List.mem_cons_of_mem c m)
    rw [rpAux_cons_some, if_neg hc, ih hr (c :: buf)]
    simp

/-- Decompose a list at the first `')'`. -/
theorem firstClose_split : ∀ l : List Char, ')' ∈ l →
    ∃ l1 l2, l = l1 ++ ')' :: l2 ∧ ')' ∉ l1 := by
  intro l
  induction l with
  | nil => intro h; cases h
  | cons c rest ih =>
    intro h
    by_cases hc : c = ')'
    · exact ⟨[], rest, by rw [hc]; rfl, by simp⟩
    · have hr : ')' ∈ rest := by
        cases List.mem_cons.mp h with
        | inl e => exact absurd e.symm hc
        | inr m => exact m
      obtain ⟨l1, l2, he, hn⟩ := ih hr
      refine ⟨c :: l1, l2, by rw [he]; rfl, ?_⟩
      intro hm
      cases List.mem_cons.mp hm with
      | inl e => exact hc e.symm
      | inr m => exact hn m

/-- A buffered group closed by the first `')'` is dropped entirely and
    scanning resumes after it. -/
theorem rpAux_some_close : ∀ l1 : List Char, ')' ∉ l1 → ∀ (l2 buf : List Char),
    rpAux (l1 ++ ')' :: l2) (some buf) = rpAux l2 none := by
  intro l1
  induction l1 with
  | nil =>
    intro _ l2 buf
    rw [List.nil_append, rpAux_cons_some, if_pos rfl]
  | cons c rest ih =>
    intro h l2 buf
    have hc : c ≠ ')' := fun e => h (e ▸ List.mem_cons_self c rest)
    have hr : ')' ∉ rest := fun m => h (List.mem_cons_of_mem c m)
    rw [List.cons_append, rpAux_cons_some, if_neg hc, ih hr l2 (c :: buf)]

/-- A string with no `')'` at all trivially satisfies `parensOK`. -/
theorem noClose_parensOK : ∀ l : List Char, ')' ∉ l → parensOK l = true := by
  intro l
  induction l with
  | nil => intro _; rfl
  | cons c rest ih =>
    intro h
    have hr : ')' ∉ rest := fun m => h (List.mem_cons_of_mem c m)
    have hany : rest.any (fun d => d = ')') = false := by
      rw [Bool.eq_false_iff]
      intro hx
      obtain ⟨x, hxm, hxe⟩ := List.any_eq_true.mp hx
      have hx' : x = ')' := of_decide_eq_true hxe
      exact hr (hx' ▸ hxm)
    rw [parensOK_cons, ih hr, Bool.and_true]
    by_cases hc : c = '('
    · rw [if_pos hc, hany]; rfl
    · rw [if_neg hc]

/-- `any (= close paren)` is false exactly when no `')'` occurs. -/
theorem any_close_eq_false_iff (l : List Char) :
    (l.any (fun d => d = ')') = false) ↔ ')' ∉ l := by
  rw [Bool.eq_false_iff]
  constructor
  · intro h hm
    exact h (List.any_eq_true.mpr ⟨')', hm, by simp⟩)
  · intro h hx
    obtain ⟨x, hxm, hxe⟩ := List.any_eq_true.mp hx
    exact h ((of_decide_eq_true hxe) ▸ hxm)

/-- The output of the parenthesis-removal scan satisfies `parensOK`:
    every `'('` it keeps has no `')'` after it. -/
theorem parensOK_rpAux : ∀ (n : Nat) (l : List Char), l.length ≤ n →
    parensOK (rpAux l none) = true := by
  intro n
  induction n with
  | zero =>
    intro l hl
    have h0 : l = [] := List.length_eq_zero.mp (Nat.le_zero.mp hl)
    subst h0
    rfl
  | succ n ih =>
    intro l hl
    cases l with
    | nil => rfl
    | cons c rest =>
      simp only [List.length_cons] at hl
      by_cases hc : c = '('
      · subst hc
        rw [rpAux_cons_none, if_pos rfl]
        by_cases hmem : ')' ∈ rest
        · obtain ⟨l1, l2, he, hn⟩ := firstClose_split rest hmem
          rw [he, rpAux_some_close l1 hn l2 ['(']]
          apply ih
          have hlen : rest.length = l1.length + 1 + l2.length := by
            rw [he]
            simp [List.length_append]
            omega
          omega
        · rw [rpAux_some_no_close rest hmem ['(']]
          simp only [List.reverse_cons, List.reverse_nil, List.nil_append, List.singleton_append]
          rw [parensOK_cons, if_pos rfl, (any_close_eq_false_iff rest).mpr hmem,
            noClose_parensOK rest hmem]
          rfl
      · rw [rpAux_cons_none, if_neg hc, parensOK_cons, if_neg hc, Bool.true_and]
        exact ih rest (by omega)

/-- `removeParens` output always satisfies `parensOK`. -/
theorem parensOK_removeParens (l : List Char) : parensOK (removeParens l) = true :=
  parensOK_rpAux l.length l (Nat.le_refl _)

/-- On a `parensOK` string the parenthesis-removal regex is the identity. -/
theorem removeParens_eq_self : ∀ l : List Char, parensOK l = true → removeParens l = l := by
  intro l
  induction l with
  | nil => intro _; rfl
  | cons c rest ih =>
    intro h
    rw [parensOK_cons, Bool.and_eq_true] at h
    by_cases hc : c = '('
    · subst hc
      rw [if_pos rfl] at h
      have hf : rest.any (fun d => d = ')') = false := by
        cases hh : rest.any (fun d => d = ')') with
        | false => rfl
        | true =>
          rw [hh] at h
          exact absurd h.1 (by decide)
      have hmem : ')' ∉ rest := (any_close_eq_false_iff rest).mp hf
      show rpAux ('(' :: rest) none = '(' :: rest
      rw [rpAux_cons_none, if_pos rfl, rpAux_some_no_close rest hmem ['(']]
      simp
    · show rpAux (c :: rest) none = c :: rest
      rw [rpAux_cons_none, if_neg hc]
      rw [show rpAux rest none = rest from ih h.2]

/-- Tail of a `parensOK` string is `parensOK`. -/
theorem parensOK_tail (c : Char) (rest : List Char) (h : parensOK (c :: rest) = true) :
    parensOK rest = true := by
  rw [parensOK_cons, Bool.and_eq_true] at h
  exact h.2

/-- In a `parensOK` string headed by `'('`, the tail has no `')'`. -/
theorem parensOK_head_close (c : Char) (rest : List Char) (h : parensOK (c :: rest) = true)
    (hc : c = '(') : ')' ∉ rest := by
  rw [parensOK_cons, Bool.and_eq_true, if_pos hc] at h
  apply (any_close_eq_false_iff rest).mp
  cases hh : rest.any (fun d => d = ')') with
  | false => rfl
  | true =>
    rw [hh] at h
    exact absurd h.1 (by decide)

/-- Introduction rule for `parensOK` on a cons. -/
theorem parensOK_cons_of (c : Char) (rest : List Char) (h1 : parensOK rest = true)
    (h2 : c = '(' → ')' ∉ rest) : parensOK (c :: rest) = true := by
  rw [parensOK_cons, h1, Bool.and_true]
  by_cases hc : c = '('
  · rw [if_pos hc, (any_close_eq_false_iff rest).mpr (h2 hc)]
    rfl
  · rw [if_neg hc]

/-- Characters of `stripEnd l` come from `l`. -/
theorem mem_stripEnd : ∀ (l : List Char) (x : Char), x ∈ stripEnd l → x ∈ l := by
  intro l
  induction l with
  | nil => intro x h; exact absurd h (List.not_mem_nil x)
  | cons c rest ih =>
    intro x h
    rw [stripEnd_cons] at h
    by_cases he : (stripEnd rest).isEmpty
    · rw [if_pos he] at h
      by_cases hs : isSpaceChar c = true
      · rw [if_pos hs] at h
        exact absurd h (List.not_mem_nil x)
      · rw [if_neg hs, List.mem_singleton] at h
        exact h ▸ List.mem_cons_self c rest
    · rw [if_neg he] at h
      rcases List.mem_cons.mp h with e | m
      · exact e ▸ List.mem_cons_self c rest
      · exact List.mem_cons_of_mem c (ih x m)

/-- `parensOK` is preserved by dropping a leading-whitespace run. -/
theorem parensOK_dropWhile : ∀ l : List Char, parensOK l = true →
    parensOK (List.dropWhile isSpaceChar l) = true := by
  intro l
  induction l with
  | nil => intro _; rfl
  | cons c rest ih =>
    intro h
    by_cases hs : isSpaceChar c = true
    · rw [List.dropWhile_cons, if_pos hs]
      exact ih (parensOK_tail c rest h)
    · rw [List.dropWhile_cons, if_neg hs]
      exact h

/-- `parensOK` is preserved by dropping trailing whitespace. -/
theorem parensOK_stripEnd : ∀ l : List Char, parensOK l = true →
    parensOK (stripEnd l) = true := by
  intro l
  induction l with
  | nil => intro _; rfl
  | cons c rest ih =>
    intro h
    rw [stripEnd_cons]
    by_cases he : (stripEnd rest).isEmpty
    · rw [if_pos he]
      by_cases hs : isSpaceChar c = true
      · rw [if_pos hs]; rfl
      · rw [if_neg hs]
        apply parensOK_cons_of
        · rfl
        · intro _
          exact List.not_mem_nil ')'
    · rw [if_neg he]
      apply parensOK_cons_of
      · exact ih (parensOK_tail c rest h)
      · intro hc m
        exact parensOK_head_close c rest h hc (mem_stripEnd rest ')' m)

/-- Characters of `cwAux l f` come from `l` or are the inserted space. -/
theorem mem_cwAux : ∀ (l : List Char) (f : Bool) (x : Char), x ∈ cwAux l f → x ∈ l ∨ x = ' ' := by
  intro l
  induction l with
  | nil => intro f x h; exact absurd h (List.not_mem_nil x)
  | cons c rest ih =>
    intro f x h
    rw [cwAux_cons] at h
    by_cases hs : isSpaceChar c = true
    · rw [if_pos hs] at h
      cases f with
      | true =>
        rw [if_pos rfl] at h
        rcases ih true x h with m | e
        · exact Or.inl (List.mem_cons_of_mem c m)
        · exact Or.inr e
      | false =>
        rw [if_neg (by decide)] at h
        rcases List.mem_cons.mp h with e | m
        · exact Or.inr e
        · rcases ih true x m with m2 | e
          · exact Or.inl (List.mem_cons_of_mem c m2)
          · exact Or.inr e
    · rw [if_neg hs] at h
      rcases List.mem_cons.mp h with e | m
      · exact Or.inl (e ▸ List.mem_cons_self c rest)
      · rcases ih false x m with m2 | e
        · exact Or.inl (List.mem_cons_of_mem c m2)
        · exact Or.inr e

/-- `parensOK` is preserved by whitespace collapsing. -/
theorem parensOK_cwAux : ∀ l : List Char, parensOK l = true →
    ∀ f, parensOK (cwAux l f) = true := by
  intro l
  induction l with
  | nil => intro _ f; rfl
  | cons c rest ih =>
    intro h f
    have ht := parensOK_tail c rest h
    rw [cwAux_cons]
    by_cases hs : isSpaceChar c = true
    · rw [if_pos hs]
      cases f with
      | true =>
        rw [if_pos rfl]
        exact ih ht true
      | false =>
        rw [if_neg (by decide)]
        apply parensOK_cons_of
        · exact ih ht true
        · intro he
          exact absurd he (by decide)
    · rw [if_neg hs]
      apply parensOK_cons_of
      · exact ih ht false
      · intro hc m
        rcases mem_cwAux rest false ')' m with m2 | e
        · exact parensOK_head_close c rest h hc m2
        · exact absurd e (by decide)

/-- `getLast?` skips a head in front of a non-empty tail. -/
theorem getLast?_cons_ne (c : Char) (r : List Char) (h : r ≠ []) :
    (c :: r).getLast? = r.getLast? := by
  cases r with
  | nil => exact absurd rfl h
  | cons b t => exact List.getLast?_cons_cons

/-- A non-empty list has a last element. -/
theorem getLast?_ne_nil : ∀ l : List Char, l ≠ [] → ∃ c, l.getLast? = some c := by
  intro l
  induction l with
  | nil => intro h; exact absurd rfl h
  | cons a rest ih =>
    intro _
    cases hr : rest with
    | nil =>
      subst hr
      exact ⟨a, List.getLast?_singleton a⟩
    | cons b t =>
      subst hr
      obtain ⟨c, hc⟩ := ih (List.cons_ne_nil b t)
      exact ⟨c, by rw [getLast?_cons_ne a _ (List.cons_ne_nil b t)]; exact hc⟩

/-- The last element belongs to the list. -/
theorem mem_of_getLast : ∀ (l : List Char) (c : Char), l.getLast? = some c → c ∈ l := by
  intro l
  induction l with
  | nil => intro c hc; cases hc
  | cons a rest ih =>
    intro c hc
    cases hr : rest with
    | nil =>
      subst hr
      rw [List.getLast?_singleton] at hc
      cases hc
      exact List.mem_cons_self a []
    | cons b t =>
      subst hr
      rw [getLast?_cons_ne a _ (List.cons_ne_nil b t)] at hc
      exact List.mem_cons_of_mem a (ih c hc)

/-- After a leading-whitespace drop, the head is not whitespace. -/
theorem hns_dropWhile (l : List Char) : headNotSpace (List.dropWhile isSpaceChar l) := by
  induction l with
  | nil => intro c hc; cases hc
  | cons a rest ih =>
    by_cases hs : isSpaceChar a = true
    · rw [List.dropWhile_cons, if_pos hs]
      exact ih
    · rw [List.dropWhile_cons, if_neg hs]
      intro c hc
      simp only [List.head?_cons, Option.some.injEq] at hc
      exact hc ▸ Bool.eq_false_iff.mpr hs

/-- `stripEnd` preserves a non-whitespace head. -/
theorem hns_stripEnd (l : List Char) (h : headNotSpace l) : headNotSpace (stripEnd l) := by
  cases l with
  | nil => intro c hc; cases hc
  | cons a rest =>
    rw [stripEnd_cons]
    by_cases he : (stripEnd rest).isEmpty
    · rw [if_pos he]
      by_cases hs : isSpaceChar a = true
      · rw [if_pos hs]
        intro c hc
        cases hc
      · rw [if_neg hs]
        intro c hc
        simp only [List.head?_cons, Option.some.injEq] at hc
        exact hc ▸ h a rfl
    · rw [if_neg he]
      intro c hc
      simp only [List.head?_cons, Option.some.injEq] at hc
      exact hc ▸ h a rfl

/-- Whitespace collapsing (not already in a run) preserves a
    non-whitespace head. -/
theorem hns_cwAux (l : List Char) (h : headNotSpace l) : headNotSpace (cwAux l false) := by
  cases l with
  | nil => intro c hc; cases hc
  | cons a rest =>
    have ha : isSpaceChar a = false := h a rfl
    rw [cwAux_cons, if_neg (by simp [ha])]
    intro c hc
    simp only [List.head?_cons, Option.some.injEq] at hc
    exact hc ▸ ha

/-- `dropWhile` is the identity when the head is not whitespace. -/
theorem dropWhile_eq_self_hns (l : List Char) (h : headNotSpace l) :
    List.dropWhile isSpaceChar l = l := by
  cases l with
  | nil => rfl
  | cons a rest =>
    rw [List.dropWhile_cons, if_neg (by simp [h a rfl])]

/-- `stripEnd` output never ends in whitespace. -/
theorem ntw_stripEnd : ∀ l : List Char, noTrailWs (stripEnd l) := by
  intro l
  induction l with
  | nil => intro c hc; cases hc
  | cons a rest ih =>
    rw [stripEnd_cons]
    by_cases he : (stripEnd rest).isEmpty
    · rw [if_pos he]
      by_cases hs : isSpaceChar a = true
      · rw [if_pos hs]
        intro c hc
        cases hc
      · rw [if_neg hs]
        intro c hc
        rw [List.getLast?_singleton] at hc
        cases hc
        exact Bool.eq_false_iff.mpr hs
    · rw [if_neg he]
      intro c hc
      have hne : stripEnd rest ≠ [] := by
        simpa [List.isEmpty_iff] using he
      rw [getLast?_cons_ne a _ hne] at hc
      exact ih c hc

/-- `cwAux` in run mode collapses to nothing only on all-whitespace input. -/
theorem cwAux_true_nil : ∀ l : List Char, cwAux l true = [] → ∀ x ∈ l, isSpaceChar x = true := by
  intro l
  induction l with
  | nil => intro _ x hx; exact absurd hx (List.not_mem_nil x)
  | cons a rest ih =>
    intro h x hx
    rw [cwAux_cons] at h
    by_cases hs : isSpaceChar a = true
    · rw [if_pos hs, if_pos rfl] at h
      rcases List.mem_cons.mp hx with e | m
      · exact e ▸ hs
      · exact ih h x m
    · rw [if_neg hs] at h
      exact absurd h (List.cons_ne_nil a _)

/-- Whitespace collapsing preserves a non-whitespace last character. -/
theorem ntw_cwAux : ∀ l : List Char, noTrailWs l → ∀ f, noTrailWs (cwAux l f) := by
  intro l
  induction l with
  | nil => intro _ f c hc; cases hc
  | cons a rest ih =>
    intro h f
    cases rest with
    | nil =>
      have ha : isSpaceChar a = false := h a (List.getLast?_singleton a)
      rw [cwAux_cons, if_neg (by simp [ha])]
      intro c hc
      rw [show cwAux [] false = [] from rfl, List.getLast?_singleton] at hc
      cases hc
      exact ha
    | cons b t =>
      have h2 : noTrailWs (b :: t) := by
        intro c hc
        exact h c (by rw [getLast?_cons_ne a _ (List.cons_ne_nil b t)]; exact hc)
      rw [cwAux_cons]
      by_cases hs : isSpaceChar a = true
      · rw [if_pos hs]
        cases f with
        | true =>
          rw [if_pos rfl]
          exact ih h2 true
        | false =>
          rw [if_neg (by decide)]
          by_cases hw : cwAux (b :: t) true = []
          · obtain ⟨d, hd⟩ := getLast?_ne_nil (b :: t) (List.cons_ne_nil b t)
            have hds : isSpaceChar d = true :=
              cwAux_true_nil (b :: t) hw d (mem_of_getLast (b :: t) d hd)
            exact absurd hds (by rw [h2 d hd]; exact Bool.false_ne_true)
          · intro c hc
            rw [getLast?_cons_ne ' ' _ hw] at hc
            exact ih h2 true c hc
      · rw [if_neg hs]
        by_cases hw : cwAux (b :: t) false = []
        · intro c hc
          rw [hw, List.getLast?_singleton] at hc
          cases hc
          exact Bool.eq_false_iff.mpr hs
        · intro c hc
          rw [getLast?_cons_ne a _ hw] at hc
          exact ih h2 false c hc

/-- `stripEnd` is the identity when the list does not end in whitespace. -/
theorem stripEnd_eq_self_ntw : ∀ l : List Char, noTrailWs l → stripEnd l = l := by
  intro l
  induction l with
  | nil => intro _; rfl
  | cons a rest ih =>
    intro h
    cases rest with
    | nil =>
      have ha : isSpaceChar a = false := h a (List.getLast?_singleton a)
      rw [stripEnd_cons, if_pos (show (stripEnd ([] : List Char)).isEmpty = true from rfl),
        if_neg (by simp [ha])]
    | cons b t =>
      have h2 : noTrailWs (b :: t) := by
        intro c hc
        exact h c (by rw [getLast?_cons_ne a _ (List.cons_ne_nil b t)]; exact hc)
      have hst : stripEnd (b :: t) = b :: t := ih h2
      rw [stripEnd_cons, hst, if_neg (by simp)]

/-- Idempotence of the whitespace-collapsing scan in all mode pairs that
    arise. -/
theorem cw_idem : ∀ l : List Char,
    cwAux (cwAux l false) false = cwAux l false
    ∧ cwAux (cwAux l true) true = cwAux l true
    ∧ cwAux (cwAux l true) false = cwAux l true := by
  intro l
  induction l with
  | nil => exact ⟨rfl, rfl, rfl⟩
  | cons c rest ih =>
    obtain ⟨A, B, C⟩ := ih
    by_cases hs : isSpaceChar c = true
    · refine ⟨?_, ?_, ?_⟩
      · rw [cwAux_cons, if_pos hs, if_neg (by decide)]
        rw [cwAux_cons, if_pos (by decide), if_neg (by decide), B]
      · rw [cwAux_cons, if_pos hs, if_pos rfl, B]
      · rw [cwAux_cons, if_pos hs, if_pos rfl, C]
    · refine ⟨?_, ?_, ?_⟩
      · rw [cwAux_cons, if_neg hs]
        rw [cwAux_cons, if_neg hs, A]
      · rw [cwAux_cons, if_neg hs]
        rw [cwAux_cons, if_neg hs, A]
      · rw [cwAux_cons, if_neg hs]
        rw [cwAux_cons, if_neg hs, A]

/-- C8: deriving a book title from an already-derived title returns it
    unchanged: `extract_book_title` is idempotent. -/
theorem extract_book_title_idempotent (s : List Char) :
    extract_book_title (extract_book_title s) = extract_book_title s := by
  have hpOK : parensOK (removeParens s) = true := parensOK_removeParens s
  have hpOK2 : parensOK (List.dropWhile isSpaceChar (removeParens s)) = true :=
    parensOK_dropWhile _ hpOK
  have hpOK3 : parensOK (stripEnd (List.dropWhile isSpaceChar (removeParens s))) = true :=
    parensOK_stripEnd _ hpOK2
  have hpOK4 : parensOK (cwAux (stripEnd (List.dropWhile isSpaceChar (removeParens s))) false) = true :=
    parensOK_cwAux _ hpOK3 false
  have hh2 : headNotSpace (stripEnd (List.dropWhile isSpaceChar (removeParens s))) :=
    hns_stripEnd _ (hns_dropWhile _)
  have hh3 : headNotSpace (cwAux (stripEnd (List.dropWhile isSpaceChar (removeParens s))) false) :=
    hns_cwAux _ hh2
  have ht2 : noTrailWs (cwAux (stripEnd (List.dropWhile isSpaceChar (removeParens s))) false) :=
    ntw_cwAux _ (ntw_stripEnd _) false
  have e1 : removeParens (extract_book_title s) = extract_book_title s :=
    removeParens_eq_self _ hpOK4
  have e2 : List.dropWhile isSpaceChar (extract_book_title s) = extract_book_title s :=
    dropWhile_eq_self_hns _ hh3
  have e3 : stripEnd (extract_book_title s) = extract_book_title s :=
    stripEnd_eq_self_ntw _ ht2
  show cwAux (stripEnd (List.dropWhile isSpaceChar (rpAux (extract_book_title s) none))) false
      = extract_book_title s
  rw [show rpAux (extract_book_title s) none = extract_book_title s from e1, e2, e3]
  exact (cw_idem _).1

/-- A false boolean is not true. -/
theorem neTrue {b : Bool} (h : b = false) : ¬(b = true) := by
  rw [h]
  exact Bool.false_ne_true

/-- Unfolding equation for `containsSub`. -/
theorem containsSub_cons (sep : List Char) (c : Char) (rest : List Char) :
    containsSub sep (c :: rest)
      = (isPrefixList sep (c :: rest) || containsSub sep rest) := rfl

/-- Unfolding equation for `replGo`, scan position. -/
theorem replGo_cons_zero (sep : List Char) (c : Char) (rest : List Char) :
    replGo sep (c :: rest) 0
      = if isPrefixList sep (c :: rest) then replGo sep rest (sep.length - 1)
        else c :: replGo sep rest 0 := rfl

/-- Unfolding equation for `replGo`, skipping position. -/
theorem replGo_cons_succ (sep : List Char) (c : Char) (rest : List Char) (k : Nat) :
    replGo sep (c :: rest) (k + 1) = replGo sep rest k := rfl

/-- Prefix check under equal heads. -/
theorem isPrefixList_cons_same (x : Char) (xs l : List Char) :
    isPrefixList (x :: xs) (x :: l) = isPrefixList xs l := by
  simp [isPrefixList]

/-- Prefix check under distinct heads. -/
theorem isPrefixList_cons_false (x c : Char) (xs l : List Char) (h : x ≠ c) :
    isPrefixList (x :: xs) (c :: l) = false := by
  simp [isPrefixList, h]

/-- Split a successful prefix check at the head. -/
theorem isPrefixList_head (x c : Char) (xs l : List Char)
    (h : isPrefixList (x :: xs) (c :: l) = true) : x = c ∧ isPrefixList xs l = true := by
  simpa [isPrefixList] using h

/-- A prefix stays a prefix after extending the big list on the right. -/
theorem isPrefixList_append_right : ∀ (sep a b : List Char),
    isPrefixList sep a = true → isPrefixList sep (a ++ b) = true := by
  intro sep
  induction sep with
  | nil => intro a b _; rfl
  | cons x xs ih =>
    intro a b h
    cases a with
    | nil => exact absurd h (neTrue rfl)
    | cons y ys =>
      obtain ⟨hxy, hrest⟩ := isPrefixList_head x y xs ys h
      subst hxy
      rw [List.cons_append, isPrefixList_cons_same]
      exact ih ys b hrest

/-- The empty separator occurs everywhere. -/
theorem containsSub_nil_sep : ∀ l : List Char, containsSub [] l = true := by
  intro l
  cases l with
  | nil => rfl
  | cons c rest => rfl

/-- An occurrence stays an occurrence after extending on the right. -/
theorem containsSub_append_right : ∀ (sep a b : List Char),
    containsSub sep a = true → containsSub sep (a ++ b) = true := by
  intro sep a
  induction a with
  | nil =>
    intro b h
    cases sep with
    | nil => exact containsSub_nil_sep b
    | cons x xs => exact absurd h (neTrue rfl)
  | cons c rest ih =>
    intro b h
    rw [containsSub_cons] at h
    rw [List.cons_append, containsSub_cons]
    cases hp : isPrefixList sep (c :: rest) with
    | true =>
      have := isPrefixList_append_right sep (c :: rest) b hp
      rw [List.cons_append] at this
      rw [this]
      rfl
    | false =>
      rw [hp] at h
      rw [ih b (by simpa using h), Bool.or_true]

/-- An occurrence in a tail is an occurrence. -/
theorem containsSub_of_tail (sep : List Char) (c : Char) (rest : List Char)
    (h : containsSub sep rest = true) : containsSub sep (c :: rest) = true := by
  rw [containsSub_cons, h, Bool.or_true]

/-- An occurrence after dropping a leading run is an occurrence. -/
theorem containsSub_dropWhile : ∀ l : List Char,
    containsSub threeDots (List.dropWhile isSpaceChar l) = true →
    containsSub threeDots l = true := by
  intro l
  induction l with
  | nil => intro h; exact h
  | cons c rest ih =>
    intro h
    by_cases hs : isSpaceChar c = true
    · rw [List.dropWhile_cons, if_pos hs] at h
      exact containsSub_of_tail _ c rest (ih h)
    · rw [List.dropWhile_cons, if_neg hs] at h
      exact h

/-- `stripEnd l` is a prefix of `l`. -/
theorem stripEnd_append_extend : ∀ l : List Char, ∃ t, stripEnd l ++ t = l := by
  intro l
  induction l with
  | nil => exact ⟨[], rfl⟩
  | cons c rest ih =>
    rw [stripEnd_cons]
    by_cases he : (stripEnd rest).isEmpty
    · rw [if_pos he]
      by_cases hs : isSpaceChar c = true
      · rw [if_pos hs]
        exact ⟨c :: rest, rfl⟩
      · rw [if_neg hs]
        exact ⟨rest, rfl⟩
    · rw [if_neg he]
      obtain ⟨t, ht⟩ := ih
      exact ⟨t, by rw [List.cons_append, ht]⟩

/-- An occurrence after dropping a trailing run is an occurrence. -/
theorem containsSub_stripEnd (l : List Char)
    (h : containsSub threeDots (stripEnd l) = true) : containsSub threeDots l = true := by
  obtain ⟨t, ht⟩ := stripEnd_append_extend l
  rw [← ht]
  exact containsSub_append_right threeDots (stripEnd l) t h

/-- An occurrence after a full strip is an occurrence. -/
theorem containsSub_pyStrip (l : List Char)
    (h : containsSub threeDots (pyStrip l) = true) : containsSub threeDots l = true :=
  containsSub_dropWhile l (containsSub_stripEnd _ h)

/-- A false one-dot prefix check forces a head mismatch. -/
theorem head_ne_of_one_false (x e : Char) (r : List Char)
    (h : isPrefixList [x] (e :: r) = false) : x ≠ e := by
  intro hx
  subst hx
  rw [isPrefixList_cons_same] at h
  exact absurd (show (true : Bool) = false from h) (by decide)

/-- No one-dot prefix implies no two-dot prefix. -/
theorem twoDots_false_of_oneDot_false : ∀ r : List Char,
    isPrefixList ['.'] r = false → isPrefixList ['.', '.'] r = false := by
  intro r h
  cases r with
  | nil => rfl
  | cons e r2 => exact isPrefixList_cons_false '.' e _ _ (head_ne_of_one_false '.' e r2 h)

/-- The replacement scan preserves "does not start with a dot". -/
theorem oneDot_preserved : ∀ r : List Char, isPrefixList ['.'] r = false →
    isPrefixList ['.'] (replGo threeDots r 0) = false := by
  intro r h
  cases r with
  | nil => rfl
  | cons e r2 =>
    have he : ('.' : Char) ≠ e := head_ne_of_one_false '.' e r2 h
    have hm : isPrefixList threeDots (e :: r2) = false := by
      rw [show threeDots = '.' :: '.' :: '.' :: [] from rfl]
      exact isPrefixList_cons_false '.' e _ _ he
    rw [replGo_cons_zero, if_neg (neTrue hm)]
    exact isPrefixList_cons_false '.' e _ _ he

/-- The replacement scan preserves "does not start with two dots". -/
theorem twoDots_preserved : ∀ r : List Char, isPrefixList ['.', '.'] r = false →
    isPrefixList ['.', '.'] (replGo threeDots r 0) = false := by
  intro r h
  cases r with
  | nil => rfl
  | cons d r2 =>
    by_cases hd : ('.' : Char) = d
    · subst hd
      rw [isPrefixList_cons_same] at h
      have hm : isPrefixList threeDots ('.' :: r2) = false := by
        rw [show threeDots = '.' :: '.' :: '.' :: [] from rfl, isPrefixList_cons_same]
        exact twoDots_false_of_oneDot_false r2 h
      rw [replGo_cons_zero, if_neg (neTrue hm), isPrefixList_cons_same]
      exact oneDot_preserved r2 h
    · have hm : isPrefixList threeDots (d :: r2) = false := by
        rw [show threeDots = '.' :: '.' :: '.' :: [] from rfl]
        exact isPrefixList_cons_false '.' d _ _ hd
      rw [replGo_cons_zero, if_neg (neTrue hm)]
      exact isPrefixList_cons_false '.' d _ _ hd

/-- Core invariant: removing `'...'` leftmost and non-overlapping leaves a
    string with no `'...'` occurrence (runs of dots shrink to length at
    most two and never merge). -/
theorem noTriple_replGo : ∀ (n : Nat) (l : List Char), l.length ≤ n →
    containsSub threeDots (replGo threeDots l 0) = false := by
  intro n
  induction n with
  | zero =>
    intro l hl
    have h0 : l = [] := List.length_eq_zero.mp (Nat.le_zero.mp hl)
    subst h0
    rfl
  | succ n ih =>
    intro l hl
    cases l with
    | nil => rfl
    | cons c rest =>
      simp only [List.length_cons] at hl
      by_cases hm : isPrefixList threeDots (c :: rest) = true
      · rw [show threeDots = '.' :: '.' :: '.' :: [] from rfl] at hm
        obtain ⟨hc, h2⟩ := isPrefixList_head '.' c _ rest hm
        cases rest with
        | nil => exact absurd h2 (neTrue rfl)
        | cons d rest2 =>
          obtain ⟨hd, h3⟩ := isPrefixList_head '.' d _ rest2 h2
          cases rest2 with
          | nil => exact absurd h3 (neTrue rfl)
          | cons e rest3 =>
            rw [replGo_cons_zero,
              if_pos (by rw [show threeDots = '.' :: '.' :: '.' :: [] from rfl]; exact hm)]
            show containsSub threeDots (replGo threeDots rest3 0) = false
            apply ih
            simp only [List.length_cons] at hl
            omega
      · rw [replGo_cons_zero, if_neg hm, containsSub_cons,
          ih rest (by omega), Bool.or_false]
        by_cases hc : c = '.'
        · subst hc
          have h2 : isPrefixList ['.', '.'] rest = false := by
            cases hh : isPrefixList ['.', '.'] rest with
            | false => rfl
            | true =>
              refine absurd ?_ hm
              rw [show threeDots = '.' :: '.' :: '.' :: [] from rfl, isPrefixList_cons_same]
              exact hh
          rw [show threeDots = '.' :: '.' :: '.' :: [] from rfl, isPrefixList_cons_same]
          exact twoDots_preserved rest h2
        · rw [show threeDots = '.' :: '.' :: '.' :: [] from rfl]
          exact isPrefixList_cons_false '.' c _ _ (fun e => hc e.symm)

/-- The `'...'` replacement never leaves a `'...'` occurrence behind. -/
theorem noTriple_replaceAll (l : List Char) :
    containsSub threeDots (replaceAll threeDots l) = false :=
  noTriple_replGo l.length l (Nat.le_refl _)

/-- On a string without `'...'` the replacement is the identity. -/
theorem replaceAll_eq_self : ∀ l : List Char, containsSub threeDots l = false →
    replaceAll threeDots l = l := by
  intro l
  induction l with
  | nil => intro _; rfl
  | cons c rest ih =>
    intro h
    rw [containsSub_cons, Bool.or_eq_false_iff] at h
    show replGo threeDots (c :: rest) 0 = c :: rest
    rw [replGo_cons_zero, if_neg (neTrue h.1)]
    rw [show replGo threeDots rest 0 = rest from ih h.2]

/-- Characters of `replGo` output come from the input. -/
theorem mem_replGo (sep : List Char) : ∀ (l : List Char) (k : Nat) (x : Char),
    x ∈ replGo sep l k → x ∈ l := by
  intro l
  induction l with
  | nil => intro k x h; exact absurd h (List.not_mem_nil x)
  | cons c rest ih =>
    intro k x h
    cases k with
    | succ k2 =>
      rw [replGo_cons_succ] at h
      exact List.mem_cons_of_mem c (ih k2 x h)
    | zero =>
      rw [replGo_cons_zero] at h
      by_cases hm : isPrefixList sep (c :: rest) = true
      · rw [if_pos hm] at h
        exact List.mem_cons_of_mem c (ih _ x h)
      · rw [if_neg hm] at h
        rcases List.mem_cons.mp h with e | m
        · exact e ▸ List.mem_cons_self c rest
        · exact List.mem_cons_of_mem c (ih 0 x m)

/-- Characters of the strip output come from the input. -/
theorem mem_pyStrip (l : List Char) (x : Char) (h : x ∈ pyStrip l) : x ∈ l :=
  (List.dropWhile_sublist isSpaceChar).subset (mem_stripEnd _ x h)

/-- Python `strip` is idempotent. -/
theorem pyStrip_idem (l : List Char) : pyStrip (pyStrip l) = pyStrip l := by
  have h1 : headNotSpace (pyStrip l) := hns_stripEnd _ (hns_dropWhile l)
  have h2 : noTrailWs (pyStrip l) := ntw_stripEnd _
  show stripEnd (List.dropWhile isSpaceChar (pyStrip l)) = pyStrip l
  rw [dropWhile_eq_self_hns _ h1]
  exact stripEnd_eq_self_ntw _ h2

/-- C4 amended: sanitization output never contains an illegal filename
    character and never exceeds 100 characters; sanitization is idempotent
    whenever the truncation step does not fire (the stripped intermediate
    already fits in 100 characters).  When truncation does cut the string
    it can leave trailing whitespace that a second pass strips, so full
    idempotence on already-sanitized strings fails. -/
theorem sanitize_props (s : List Char) :
    ((sanitize_filename s).all (fun c => !(isIllegalFilenameChar c))) = true
    ∧ (sanitize_filename s).length ≤ 100
    ∧ ((pyStrip (replaceAll threeDots (s.filter (fun c => !(isIllegalFilenameChar c))))).length ≤ 100 →
        sanitize_filename (sanitize_filename s) = sanitize_filename s) := by
  refine ⟨?_, ?_, ?_⟩
  · apply List.all_eq_true.mpr
    intro x hx
    have hx1 : x ∈ pyStrip (replaceAll threeDots (s.filter (fun c => !(isIllegalFilenameChar c)))) :=
      List.take_subset 100 _ hx
    have hx2 : x ∈ replaceAll threeDots (s.filter (fun c => !(isIllegalFilenameChar c))) :=
      mem_pyStrip _ x hx1
    have hx3 : x ∈ s.filter (fun c => !(isIllegalFilenameChar c)) :=
      mem_replGo threeDots _ 0 x hx2
    simpa using List.of_mem_filter hx3
  · show (List.take 100 (pyStrip (replaceAll threeDots
        (s.filter (fun c => !(isIllegalFilenameChar c)))))).length ≤ 100
    rw [List.length_take]
    exact Nat.min_le_left 100 _
  · intro h
    have e0 : sanitize_filename s
        = pyStrip (replaceAll threeDots (s.filter (fun c => !(isIllegalFilenameChar c)))) :=
      List.take_of_length_le h
    rw [e0]
    have hfilter : (pyStrip (replaceAll threeDots
        (s.filter (fun c => !(isIllegalFilenameChar c))))).filter
          (fun c => !(isIllegalFilenameChar c))
        = pyStrip (replaceAll threeDots (s.filter (fun c => !(isIllegalFilenameChar c)))) := by
      apply List.filter_eq_self.mpr
      intro a ha
      simpa using List.of_mem_filter (mem_replGo threeDots _ 0 a (mem_pyStrip _ a ha))
    have hnd : containsSub threeDots (pyStrip (replaceAll threeDots
        (s.filter (fun c => !(isIllegalFilenameChar c))))) = false := by
      cases hcc : containsSub threeDots (pyStrip (replaceAll threeDots
          (s.filter (fun c => !(isIllegalFilenameChar c))))) with
      | false => rfl
      | true => exact absurd (containsSub_pyStrip _ hcc) (neTrue (noTriple_replaceAll _))
    show List.take 100 (pyStrip (replaceAll threeDots (List.filter _ _))) = _
    rw [hfilter, replaceAll_eq_self _ hnd, pyStrip_idem]
    exact List.take_of_length_le h

/-- Witness for the C4 amended theorem at the small input "a<b". -/
theorem sanitize_props_wit :
    ((sanitize_filename (lc "a<b")).all (fun c => !(isIllegalFilenameChar c))) = true
    ∧ (sanitize_filename (lc "a<b")).length ≤ 100
    ∧ sanitize_filename (sanitize_filename (lc "a<b")) = sanitize_filename (lc "a<b") :=
  ⟨(sanitize_props (lc "a<b")).1, (sanitize_props (lc "a<b")).2.1,
    (sanitize_props (lc "a<b")).2.2 (by decide)⟩

set_option maxRecDepth 40000 in
/-- C4 counterexample: `exLongName` (101 characters, "aaa…a b") sanitizes
    to 99 "a"s followed by one space — an output of the sanitizer — and
    sanitizing that output again strips the trailing space, so
    sanitization is not idempotent on its own output. -/
theorem sanitize_not_idempotent_cex :
    sanitize_filename exLongName = List.replicate 99 'a' ++ [' ']
    ∧ sanitize_filename (sanitize_filename exLongName) ≠ sanitize_filename exLongName := by
  constructor
  · decide
  · decide
